import Mathlib

/-!
Verification of the DhakaPost crawler core
(src/Module_A/news_crawler/news_crawler/spiders/dhakapost_alltopics_500.py).

Strings are embedded as `List Char`.  Python semantics that the code relies
on (str.strip, str.split with and without separator, urllib.parse.urlparse's
path extraction, the `ARTICLE_RE` regular expression, set-based dedup, and
the Scrapy callback structure) are translated below directly from the source.
The browser Page collaborator is modelled as an environment that supplies, per
pagination round, the harvested hrefs and whether the "reveal more" control
was found and clicked successfully.
-/

abbrev Str := List Char

/-- Drops the literal `p` from the front of `s`; `none` when `p` is not a
literal prefix of `s`. -/
def dropLit : Str → Str → Option Str
  | [], s => some s
  | _ :: _, [] => none
  | c :: p, d :: s => if c = d then dropLit p s else none

/-- Python `sep in s` (substring containment) for a non-empty `sep`. -/
def containsSub (sep : Str) : Str → Bool
  | [] => decide (sep = [])
  | c :: r => (dropLit sep (c :: r)).isSome || containsSub sep r

/-- Helper for `splitLast`: fuel-indexed scan.  `fuel` is at least the length
of the string, so the fuel-exhausted branch is never taken in practice. -/
def splitLastAux (sep : Str) : Nat → Str → Str
  | _, [] => []
  | 0, s => s
  | fuel + 1, c :: r =>
    match dropLit sep (c :: r) with
    | some rest => splitLastAux sep fuel rest
    | none => if containsSub sep r then splitLastAux sep fuel r else c :: r

/-- Python `s.split(sep)[-1]` for a non-empty separator: the final piece of
the leftmost non-overlapping split. -/
def splitLast (sep s : Str) : Str := splitLastAux sep s.length s

/-- The suffix of `s` that follows the rightmost occurrence of `sep`
(`none` when `sep` does not occur).  Used only to state what the spec's
words "after the last `/topic/` occurrence" denote. -/
def lastOccSuffix (sep : Str) : Str → Option Str
  | [] => if sep = [] then some [] else none
  | c :: r =>
    match lastOccSuffix sep r with
    | some t => some t
    | none => dropLit sep (c :: r)

/-- Python `s.rstrip(ch)` for a single strip character. -/
def rstripChar (ch : Char) (s : Str) : Str :=
  (s.reverse.dropWhile (fun c => decide (c = ch))).reverse

/-- Python `s.strip(ch)` for a single strip character. -/
def stripCharBoth (ch : Char) (s : Str) : Str :=
  rstripChar ch (s.dropWhile (fun c => decide (c = ch)))

/-- Python `s.split(ch)` for a single-character separator (keeps empty
pieces; the result is never the empty list). -/
def pySplitChar (sep : Char) : Str → List Str
  | [] => [[]]
  | c :: r =>
    if c = sep then [] :: pySplitChar sep r
    else (pySplitChar sep r).modifyHead (fun w => c :: w)

/-- Python's whitespace class, as used by `str.strip()`/`str.split()`. -/
def isPySpace (c : Char) : Bool :=
  let n := c.toNat
  (0x09 ≤ n && n ≤ 0x0D) || n = 0x20 || (0x1C ≤ n && n ≤ 0x1F) || n = 0x85 ||
    n = 0xA0 || n = 0x1680 || (0x2000 ≤ n && n ≤ 0x200A) || n = 0x2028 ||
    n = 0x2029 || n = 0x202F || n = 0x205F || n = 0x3000

/-- Python `s.strip()` (whitespace from both ends). -/
def pyStrip (s : Str) : Str :=
  ((s.dropWhile isPySpace).reverse.dropWhile isPySpace).reverse

/-- Python `s.replace("\xa0", " ")` (the separator is a single character, so
replacement is a character map). -/
def replaceNBSP (s : Str) : Str :=
  s.map (fun c => if c = '\u00A0' then ' ' else c)

/-- Helper for `pySplit`: `acc` is the current in-progress word, reversed. -/
def pySplitAux : Str → Str → List Str
  | [], acc => if acc = [] then [] else [acc.reverse]
  | c :: r, acc =>
    if isPySpace c then
      if acc = [] then pySplitAux r [] else acc.reverse :: pySplitAux r []
    else pySplitAux r (c :: acc)

/-- Python `s.split()` (split on whitespace runs, dropping empty pieces). -/
def pySplit (s : Str) : List Str := pySplitAux s []

/-- Python `" ".join(ws)`. -/
def joinSpace : List Str → Str
  | [] => []
  | [w] => w
  | w :: ws => w ++ ' ' :: joinSpace ws

/-! urllib.parse: the part of `urlparse` that produces `.path`, including the
ValueError raised on mismatched IPv6 brackets in the netloc (the parse
failure that `url_to_section` catches).  The WHATWG sanitization steps of
modern CPython (strip leading/trailing C0-control-or-space, remove tab/CR/LF
everywhere) are included; the NFKC netloc check is not modelled. -/

def isAsciiAlpha (c : Char) : Bool :=
  ('a' ≤ c && c ≤ 'z') || ('A' ≤ c && c ≤ 'Z')

def isSchemeChar (c : Char) : Bool :=
  isAsciiAlpha c || c.isDigit || c = '+' || c = '-' || c = '.'

def validScheme : Str → Bool
  | [] => false
  | c :: r => isAsciiAlpha c && (c :: r).all isSchemeChar

def sanitizeUrl (s : Str) : Str :=
  let t := ((s.dropWhile (fun c => decide (c.toNat ≤ 0x20))).reverse.dropWhile
    (fun c => decide (c.toNat ≤ 0x20))).reverse
  t.filter (fun c => decide (c ≠ '\t' ∧ c ≠ '\r' ∧ c ≠ '\n'))

/-- Model of `urlsplit(url).path`; `none` models the ValueError on an invalid IPv6
netloc. -/
def urlsplitPathE (s0 : Str) : Option Str :=
  let s := sanitizeUrl s0
  let pre := s.takeWhile (fun c => decide (c ≠ ':'))
  let u1 := if pre.length < s.length && validScheme pre
    then s.drop (pre.length + 1) else s
  match u1 with
  | '/' :: '/' :: after =>
    let netloc := after.takeWhile (fun c => decide (c ≠ '/' ∧ c ≠ '?' ∧ c ≠ '#'))
    let u2 := after.dropWhile (fun c => decide (c ≠ '/' ∧ c ≠ '?' ∧ c ≠ '#'))
    if (netloc.contains '[' && !netloc.contains ']') ||
        (netloc.contains ']' && !netloc.contains '[') then none
    else some ((u2.takeWhile (fun c => decide (c ≠ '#'))).takeWhile
      (fun c => decide (c ≠ '?')))
  | _ => some ((u1.takeWhile (fun c => decide (c ≠ '#'))).takeWhile
      (fun c => decide (c ≠ '?')))

/-- Python `urlparse` additionally splits `;params` off the last path segment. -/
def splitParamsPath (p : Str) : Str :=
  if p.contains ';' then
    if p.contains '/' then
      let suf := (p.reverse.takeWhile (fun c => decide (c ≠ '/'))).reverse
      if suf.contains ';' then
        p.take (p.length - suf.length) ++ suf.takeWhile (fun c => decide (c ≠ ';'))
      else p
    else p.takeWhile (fun c => decide (c ≠ ';'))
  else p

/-- Model of `urlparse(url).path`; `none` models a raised ValueError. -/
def urlparsePathE (s : Str) : Option Str := (urlsplitPathE s).map splitParamsPath

def topicSep : Str := "/topic/".toList

/-- Function `source_to_category` from the source.  The result is `none` when the
non-topic branch's bare `urlparse` call raises (there is no try/except in
this function, so the exception would propagate). -/
def source_to_category (s : Str) : Option (Str × Option Str) :=
  if s = [] then some ("unknown".toList, none)
  else if containsSub topicSep s then
    some ("topic".toList, some (splitLast topicSep (rstripChar '/' s)))
  else
    match urlparsePathE s with
    | none => none
    | some p =>
      let path := stripCharBoth '/' p
      if path = [] then some ("home".toList, none)
      else some (path.takeWhile (fun c => decide (c ≠ '/')), none)

/-- Modelled from the spec: the claim's wording for the topic slug, namely
"the path remainder after the last `/topic/` occurrence, with any trailing
slash stripped".  Used only to compare the code's behaviour against the
claim. -/
def specTopicSlug (s : Str) : Str :=
  rstripChar '/' ((lastOccSuffix topicSep s).getD s)

/-- Function `url_to_section` from the source: the whole body runs inside
try/except, so a parse failure yields `none` instead of an exception. -/
def url_to_section (s : Str) : Option Str :=
  match urlparsePathE s with
  | none => none
  | some p =>
    let parts := pySplitChar '/' (stripCharBoth '/' p)
    if 2 ≤ parts.length then parts.head? else none

/-! Model of `ARTICLE_RE = re.compile(r"^https?://www\.dhakapost\.com/[^/]+/\d+/?$")`.
The alternation `https?` is deterministic (the two literal prefixes differ at
their fifth character), `[^/]+` must end at the first `/`, and `\d+` must end
at the first non-digit; Python's `$` also accepts a single trailing newline.
`\d` is modelled as the ASCII digits (Python would also accept other Unicode
decimal digits; no claim depends on the difference). -/

def httpsFull : Str := "https://www.dhakapost.com/".toList
def httpFull : Str := "http://www.dhakapost.com/".toList

/-- Matches `[^/]+/\d+/?$` (with Python's `$`-before-final-newline rule). -/
def matchTail (s : Str) : Bool :=
  let seg := s.takeWhile (fun c => decide (c ≠ '/'))
  let rest := s.dropWhile (fun c => decide (c ≠ '/'))
  decide (seg ≠ []) &&
    match rest with
    | '/' :: r =>
      let r2 := r.dropWhile Char.isDigit
      decide (r.takeWhile Char.isDigit ≠ []) &&
        (decide (r2 = []) || decide (r2 = ['/']) || decide (r2 = ['\n']) ||
          decide (r2 = ['/', '\n']))
    | _ => false

/-- Truthiness of `ARTICLE_RE.match(url)`. -/
def articleMatch (s : Str) : Bool :=
  match dropLit httpsFull s with
  | some rest => matchTail rest
  | none =>
    match dropLit httpFull s with
    | some rest => matchTail rest
    | none => false

/-! The shared link registry (`self.seen_links`, a Python set, modelled as a
duplicate-free list) and a run of check-and-insert operations on it.  Scrapy
schedules callbacks cooperatively on one thread, so the concurrent
check-and-inserts of a run form a sequence of atomic steps. -/

/-- The `tryAdd`-equivalent step: `if url in seen: ... else: seen.add(url)`. -/
def tryAdd (seen : List Str) (u : Str) : Bool × List Str :=
  if u ∈ seen then (false, seen) else (true, u :: seen)

/-- A run of `tryAdd` steps: per-operation results paired with the final
registry. -/
def runTryAdds : List Str → List Str → List (Str × Bool) × List Str
  | seen, [] => ([], seen)
  | seen, u :: ops =>
    let p := tryAdd seen u
    let rest := runTryAdds p.2 ops
    ((u, p.1) :: rest.1, rest.2)

/-- An extraction request emitted by `parse_list` (url plus the meta fields
it carries). -/
structure Request where
  url : Str
  category : Str
  topicSlug : Option Str
deriving DecidableEq

/-- The per-href body of `parse_list`'s harvest loop: discard non-matching
hrefs, skip already-seen ones, otherwise record and emit. -/
def processRound (cat : Str) (slug : Option Str) (seen : List Str) :
    List Str → List Request × List Str
  | [] => ([], seen)
  | h :: hs =>
    if articleMatch h then
      if h ∈ seen then processRound cat slug seen hs
      else
        let rest := processRound cat slug (h :: seen) hs
        (⟨h, cat, slug⟩ :: rest.1, rest.2)
    else processRound cat slug seen hs

/-- What the Page collaborator yields in one pagination round: the harvested
hrefs, and whether a "reveal more" control was found and clicked without an
exception (false covers both `btn.count() == 0` and a click failure). -/
structure RoundEnv where
  hrefs : List Str
  buttonOk : Bool

/-- The loop-carried state of `parse_list`: the shared registry plus the
per-source `last_total` and `stale_rounds` counters. -/
structure ListState where
  seen : List Str
  lastTotal : Nat
  staleRounds : Nat

def maxClicksPerSource : Nat := 80
def targetUniqueLinks : Nat := 2100

/-- The stale-round bookkeeping after one harvest: `if len(seen) == last_total:
stale_rounds += 1 else: stale_rounds = 0; last_total = len(seen)`. -/
def roundUpdate (st : ListState) (seen2 : List Str) : ListState :=
  if seen2.length = st.lastTotal then ⟨seen2, st.lastTotal, st.staleRounds + 1⟩
  else ⟨seen2, seen2.length, 0⟩

/-- The `for click_i in range(self.max_clicks_per_source)` loop of
`parse_list`.  Returns the emitted requests, the final state, and the list of
registry sizes observed at the start of each executed round (so its length is
the number of rounds executed). -/
def parseListLoop (cat : Str) (slug : Option Str) (env : Nat → RoundEnv) :
    Nat → Nat → ListState → List Request × ListState × List Nat
  | 0, _, st => ([], st, [])
  | fuel + 1, i, st =>
    if targetUniqueLinks ≤ st.seen.length then ([], st, [])
    else
      let pr := processRound cat slug st.seen (env i).hrefs
      let st2 := roundUpdate st pr.2
      if 5 ≤ st2.staleRounds then (pr.1, st2, [st.seen.length])
      else if (env i).buttonOk = false then (pr.1, st2, [st.seen.length])
      else
        let rest := parseListLoop cat slug env fuel (i + 1) st2
        (pr.1 ++ rest.1, rest.2.1, st.seen.length :: rest.2.2)

/-- Callback `parse_list` for one listing source: `last_total = 0`, `stale_rounds = 0`,
then the loop. -/
def parse_list (cat : Str) (slug : Option Str) (env : Nat → RoundEnv)
    (seen : List Str) : List Request × ListState × List Nat :=
  parseListLoop cat slug env maxClicksPerSource 0 ⟨seen, 0, 0⟩

/-- One listing source as dispatched by `parse_home`: its classification plus
the Page behaviour it will encounter. -/
structure SourceJob where
  category : Str
  topicSlug : Option Str
  env : Nat → RoundEnv

/-- A whole run over the sources, threading the shared registry. -/
def runSources : List Str → List SourceJob → List Request × List Str
  | seen, [] => ([], seen)
  | seen, j :: js =>
    let r := parse_list j.category j.topicSlug j.env seen
    let rest := runSources r.2.1.seen js
    (r.1 ++ rest.1, rest.2)

/-! Extraction (`parse_article`): the rendered article page is modelled by the text-node
lists its selector queries return.  `css("h1::text")` and `//h1/text()`
select the same nodes (parsel translates the former to the latter), so a
single list models both; likewise each of the two author queries is given
its own result list. -/

/-- One article response as seen by `parse_article`. -/
structure Response where
  isText : Bool
  h1Texts : List Str
  authorTextsA : List Str
  authorTextsB : List Str
  timeTexts : List Str
  paraTexts : List Str
  url : Str
deriving DecidableEq

/-- The item dict yielded by `parse_article`. -/
structure ArticleRecord where
  title : Option Str
  body : Str
  url : Str
  date : Option Str
  language : Str
  author : Option Str
  tokens : Nat
  «section» : Option Str
deriving DecidableEq

/-- Python `a or b` on selector-`get()` results (`None` and `""` are falsy). -/
def pyOrStr (a b : Option Str) : Option Str :=
  match a with
  | none => b
  | some v => if v = [] then b else some v

/-- Python `x.strip() if x else None`. -/
def stripOrNone (x : Option Str) : Option Str :=
  match x with
  | none => none
  | some v => if v = [] then none else some (pyStrip v)

/-- Assignment `title = response.css("h1::text").get() or response.xpath("//h1/text()").get()`
followed by `title.strip() if title else None`, with both queries returning
the same node list. -/
def titleOf (h1 : List Str) : Option Str :=
  stripOrNone (pyOrStr h1.head? h1.head?)

/-- Modelled from the spec: the claim's title rule — "first non-empty text
content of an h1 element ... trimmed of whitespace ... absent when no such
non-empty text exists".  Used only to compare the code against the claim. -/
def titleSpec (h1 : List Str) : Option Str :=
  ((h1.filter (fun t => decide (t ≠ []))).head?).map pyStrip

/-- The author assignment (two queries joined by Python `or`, then
`strip() if truthy`). -/
def authorOf (a b : List Str) : Option Str :=
  stripOrNone (pyOrStr a.head? b.head?)

/-- Assignment `date = response.css("time::text").get(); if date: date = date.strip()`. -/
def dateOf (ts : List Str) : Option Str :=
  ts.head?.map (fun d => if d = [] then d else pyStrip d)

/-- The `bad` set of boilerplate phrases, verbatim from the source. -/
def badPhrases : List Str :=
  ["আরও পড়ুন".toList, "ফলো করুন".toList, "বিজ্ঞাপন".toList, "লোড হচ্ছে ...".toList]

/-- Node transform `t.strip().replace("\xa0", " ")`. -/
def transformNode (t : Str) : Str := replaceNBSP (pyStrip t)

/-- The two list comprehensions over the paragraph text nodes: keep nodes
with non-empty strip, strip and de-NBSP them, then drop boilerplate. -/
def cleanedOf (paras : List Str) : List Str :=
  ((paras.filter (fun t => decide (pyStrip t ≠ []))).map transformNode).filter
    (fun t => decide (¬ t ∈ badPhrases))

/-- Assignment `body = " ".join(cleaned)`. -/
def bodyOf (paras : List Str) : Str := joinSpace (cleanedOf paras)

/-- The record built for a textual response. -/
def extractRecord (r : Response) : ArticleRecord :=
  ⟨titleOf r.h1Texts,
   bodyOf r.paraTexts,
   r.url,
   dateOf r.timeTexts,
   "bn".toList,
   authorOf r.authorTextsA r.authorTextsB,
   (pySplit (bodyOf r.paraTexts)).length,
   url_to_section r.url⟩

/-- Callback `parse_article`: a non-TextResponse is skipped with a warning log and
yields nothing; a textual response yields exactly one record.  The first
component is the list of warning messages logged. -/
def parse_article (r : Response) : List Str × Option ArticleRecord :=
  if r.isText then ([], some (extractRecord r))
  else (["Skipping non-text response".toList], none)

/-! Lemmas about the string primitives. -/

theorem dropLit_some {p : Str} : ∀ {s r : Str}, dropLit p s = some r → s = p ++ r := by
  induction p with
  | nil =>
    intro s r h
    simpa [dropLit] using h
  | cons c p ih =>
    intro s r h
    cases s with
    | nil => simp [dropLit] at h
    | cons d t =>
      by_cases hc : c = d
      · subst hc
        simp only [dropLit, if_pos rfl] at h
        rw [List.cons_append, ← ih h]
      · simp [dropLit, hc] at h

theorem dropLit_self : ∀ (p r : Str), dropLit p (p ++ r) = some r := by
  intro p
  induction p with
  | nil => intro r; rfl
  | cons c p ih => intro r; simp [dropLit, ih]

theorem containsSub_append {sep t : Str} (h : containsSub sep t = true) (u : Str) :
    containsSub sep (t ++ u) = true := by
  induction t with
  | nil =>
    simp only [containsSub, decide_eq_true_eq] at h
    subst h
    cases u with
    | nil => rfl
    | cons c r => simp [containsSub, dropLit]
  | cons c r ih =>
    rw [List.cons_append]
    simp only [containsSub, Bool.or_eq_true] at h ⊢
    rcases h with h | h
    · left
      rcases Option.isSome_iff_exists.mp h with ⟨x, hx⟩
      have hcr : c :: r = sep ++ x := dropLit_some hx
      have : c :: (r ++ u) = sep ++ (x ++ u) := by
        rw [← List.cons_append, hcr, List.append_assoc]
      rw [this, dropLit_self]
      rfl
    · exact Or.inr (ih h)

theorem head?_append_ne {x : Str} (y : Str) (h : x ≠ []) : (x ++ y).head? = x.head? := by
  cases x with
  | nil => exact absurd rfl h
  | cons a t => rfl

theorem getLast?_append_ne (l₁ : Str) {l₂ : Str} (h : l₂ ≠ []) :
    (l₁ ++ l₂).getLast? = l₂.getLast? := by
  rw [← List.head?_reverse, ← List.head?_reverse (l := l₂), List.reverse_append,
    head?_append_ne _ (by simpa using h)]

theorem head?_dropWhile_false (p : Char → Bool) :
    ∀ (l : Str) (c : Char), (l.dropWhile p).head? = some c → p c = false := by
  intro l
  induction l with
  | nil => intro c h; simp [List.dropWhile] at h
  | cons a t ih =>
    intro c h
    rw [List.dropWhile_cons] at h
    by_cases hp : p a = true
    · rw [if_pos hp] at h
      exact ih c h
    · rw [if_neg hp] at h
      simp only [List.head?_cons, Option.some.injEq] at h
      subst h
      simpa using hp

theorem rstripChar_decomp (ch : Char) (s : Str) :
    ∃ u, (∀ c ∈ u, c = ch) ∧ rstripChar ch s ++ u = s := by
  refine ⟨(s.reverse.takeWhile (fun c => decide (c = ch))).reverse, ?_, ?_⟩
  · intro c hc
    rw [List.mem_reverse] at hc
    simpa using List.mem_takeWhile_imp hc
  · rw [rstripChar, ← List.reverse_append, List.takeWhile_append_dropWhile,
      List.reverse_reverse]

theorem rstripChar_getLast (ch : Char) (s : Str) :
    (rstripChar ch s).getLast? ≠ some ch := by
  intro h
  rw [rstripChar, ← List.head?_reverse, List.reverse_reverse] at h
  simpa using head?_dropWhile_false _ _ _ h

theorem splitLastAux_suffix (sep : Str) :
    ∀ (fuel : Nat) (s : Str), ∃ pre, pre ++ splitLastAux sep fuel s = s := by
  intro fuel
  induction fuel with
  | zero =>
    intro s
    cases s with
    | nil => exact ⟨[], rfl⟩
    | cons c r => exact ⟨[], rfl⟩
  | succ fuel ih =>
    intro s
    cases s with
    | nil => exact ⟨[], rfl⟩
    | cons c r =>
      cases hd : dropLit sep (c :: r) with
      | some rest =>
        rcases ih rest with ⟨pre, hpre⟩
        refine ⟨sep ++ pre, ?_⟩
        simp only [splitLastAux, hd]
        rw [List.append_assoc, hpre]
        exact (dropLit_some hd).symm
      | none =>
        by_cases hc : containsSub sep r = true
        · rcases ih r with ⟨pre, hpre⟩
          refine ⟨c :: pre, ?_⟩
          simp only [splitLastAux, hd, hc, if_true]
          rw [List.cons_append, hpre]
        · refine ⟨[], ?_⟩
          simp only [splitLastAux, hd, hc, if_false]
          rfl

theorem splitLastAux_nil {sep : Str} (hsep : sep ≠ []) :
    ∀ (fuel : Nat) (s : Str), s.length ≤ fuel → splitLastAux sep fuel s = [] →
      s = [] ∨ ∃ pre, s = pre ++ sep := by
  intro fuel
  induction fuel with
  | zero =>
    intro s hl _
    cases s with
    | nil => exact Or.inl rfl
    | cons c r => simp at hl
  | succ fuel ih =>
    intro s hl h
    cases s with
    | nil => exact Or.inl rfl
    | cons c r =>
      cases hd : dropLit sep (c :: r) with
      | some rest =>
        simp only [splitLastAux, hd] at h
        have hcr : c :: r = sep ++ rest := dropLit_some hd
        have hsl : 1 ≤ sep.length := List.length_pos.mpr hsep
        have h1 : r.length + 1 = sep.length + rest.length := by
          have h2 := congrArg List.length hcr
          simpa using h2
        have hl2 : r.length + 1 ≤ fuel + 1 := by simpa using hl
        have hrl : rest.length ≤ fuel := by omega
        rcases ih rest hrl h with rfl | ⟨pre, hpre⟩
        · exact Or.inr ⟨[], by simpa using hcr⟩
        · refine Or.inr ⟨sep ++ pre, ?_⟩
          rw [hcr, hpre, List.append_assoc]
      | none =>
        by_cases hc : containsSub sep r = true
        · simp only [splitLastAux, hd, hc, if_true] at h
          have hrl : r.length ≤ fuel := by
            simp only [List.length_cons] at hl; omega
          rcases ih r hrl h with rfl | ⟨pre, hpre⟩
          · rw [containsSub] at hc
            exact absurd (of_decide_eq_true hc) hsep
          · exact Or.inr ⟨c :: pre, by rw [hpre, List.cons_append]⟩
        · simp only [splitLastAux, hd, hc] at h
          simp at h

/-- C4 counterexample: for the URL `https://www.dhakapost.com/topic/` (which
contains `/topic/`), `source_to_category` returns category `"topic"` with the
slug `https://www.dhakapost.com/topic` — the whole prefix of the URL — while
the claim's rule (remainder after the last `/topic/` occurrence, trailing
slash stripped) gives the empty string; in particular the slug is neither
that remainder nor a path segment. -/
theorem topic_slug_spec_mismatch_cx :
    source_to_category "https://www.dhakapost.com/topic/".toList
        = some ("topic".toList, some "https://www.dhakapost.com/topic".toList)
    ∧ specTopicSlug "https://www.dhakapost.com/topic/".toList = []
    ∧ some "https://www.dhakapost.com/topic".toList
        ≠ some (specTopicSlug "https://www.dhakapost.com/topic/".toList) := by
  refine ⟨by decide, by decide, by decide⟩

/-- C4 (amended): for every URL whose trailing-slash-stripped form still
contains `/topic/`, `source_to_category` returns category `"topic"` and a
topicSlug equal to the final piece of the Python split of the slash-stripped
URL on `/topic/` (the remainder after the last occurrence, for
non-overlapping occurrences); that slug is non-empty and carries no trailing
slash.  When `/topic/` occurs only at the stripped end of the URL the
category is still `"topic"` but the slug is the whole prefix up to `/topic`,
not the empty remainder the spec describes. -/
theorem topic_slug_amended (s : Str)
    (h : containsSub topicSep (rstripChar '/' s) = true) :
    source_to_category s
        = some ("topic".toList, some (splitLast topicSep (rstripChar '/' s)))
    ∧ splitLast topicSep (rstripChar '/' s) ≠ []
    ∧ (splitLast topicSep (rstripChar '/' s)).getLast? ≠ some '/' := by
  have hts : topicSep ≠ [] := by decide
  have htne : rstripChar '/' s ≠ [] := by
    intro he
    rw [he] at h
    rw [containsSub] at h
    exact hts (of_decide_eq_true h)
  have hsne : s ≠ [] := by
    intro he
    subst he
    simp [rstripChar] at htne
  have hcs : containsSub topicSep s = true := by
    obtain ⟨u, _, hu⟩ := rstripChar_decomp '/' s
    rw [← hu]
    exact containsSub_append h u
  have hlast : (rstripChar '/' s).getLast? ≠ some '/' := rstripChar_getLast '/' s
  have hne : splitLast topicSep (rstripChar '/' s) ≠ [] := by
    intro he
    rw [splitLast] at he
    rcases splitLastAux_nil hts (rstripChar '/' s).length (rstripChar '/' s)
        (le_refl _) he with h1 | ⟨pre, hpre⟩
    · exact htne h1
    · apply hlast
      rw [hpre, getLast?_append_ne _ hts]
      decide
  refine ⟨?_, hne, ?_⟩
  · rw [source_to_category, if_neg hsne, if_pos hcs]
  · obtain ⟨pre, hpre⟩ :=
      splitLastAux_suffix topicSep (rstripChar '/' s).length (rstripChar '/' s)
    intro hgl
    apply hlast
    rw [← hpre, getLast?_append_ne _ (by rw [splitLast] at hne; exact hne)]
    rw [splitLast] at hgl
    exact hgl

/-- C4 witness: a well-formed topic URL, classified by applying the amended
theorem at a concrete input. -/
theorem topic_slug_amended_witness :
    source_to_category "https://www.dhakapost.com/topic/election-2024".toList
        = some ("topic".toList, some (splitLast topicSep
            (rstripChar '/' "https://www.dhakapost.com/topic/election-2024".toList)))
    ∧ splitLast topicSep
        (rstripChar '/' "https://www.dhakapost.com/topic/election-2024".toList) ≠ [] := by
  have h := topic_slug_amended "https://www.dhakapost.com/topic/election-2024".toList
    (by decide)
  exact ⟨h.1, h.2.1⟩

/-- C8: `url_to_section` returns the first segment of the slash-stripped URL
path exactly when that path splits into at least two segments, and `none`
otherwise; a parse failure (modelled as `urlparsePathE = none`, the
ValueError the function catches) yields `none` instead of propagating. -/
theorem section_parse_behavior (s : Str) :
    (urlparsePathE s = none → url_to_section s = none)
    ∧ (∀ p : Str, urlparsePathE s = some p →
        url_to_section s =
          if 2 ≤ (pySplitChar '/' (stripCharBoth '/' p)).length
          then (pySplitChar '/' (stripCharBoth '/' p)).head? else none) := by
  constructor
  · intro h
    simp only [url_to_section, h]
  · intro p h
    simp only [url_to_section, h]

/-- C8 witness: the spec's own example URL, via the theorem, and a
malformed-IPv6 URL whose parse failure yields an absent section. -/
theorem section_parse_witness :
    url_to_section "https://example.com/jobs-career/425620".toList
        = some "jobs-career".toList
    ∧ url_to_section "http://[::1/a/b".toList = none := by
  constructor
  · have h := (section_parse_behavior "https://example.com/jobs-career/425620".toList).2
      "/jobs-career/425620".toList (by decide)
    rw [h]
    decide
  · exact (section_parse_behavior "http://[::1/a/b".toList).1 (by decide)

/-- C7 counterexample: when the first h1 text node is the empty string and a
later node is non-empty, `parse_article`'s title is absent whereas the
claim's rule ("first non-empty text content ... trimmed") produces the later
node. -/
theorem title_first_nonempty_cx :
    titleOf [[], ['X']] = none ∧ titleSpec [[], ['X']] = some ['X']
    ∧ titleOf [[], ['X']] ≠ titleSpec [[], ['X']] := by
  refine ⟨by decide, by decide, by decide⟩

/-- C7 (amended): the title is the trimmed FIRST h1 text node when that node
is non-empty, and absent when there is no h1 text node or the first one is
the empty string — later non-empty nodes are never consulted (a
whitespace-only first node therefore yields a present, empty title). -/
theorem title_first_node_amended (ts : List Str) (t : Str) (rest : List Str) :
    (ts = [] → titleOf ts = none)
    ∧ (ts = t :: rest → titleOf ts = if t = [] then none else some (pyStrip t)) := by
  constructor
  · rintro rfl
    rfl
  · rintro rfl
    by_cases h : t = []
    · simp [titleOf, pyOrStr, stripOrNone, h]
    · simp [titleOf, pyOrStr, stripOrNone, h]

/-- C7 witness: the amended rule applied at a concrete one-node page. -/
theorem title_first_node_witness : titleOf [['h']] = some ['h'] := by
  have h := (title_first_node_amended [['h']] ['h'] []).2 rfl
  rw [h]
  decide

/-- C9: a record is emitted exactly when the response is textual; a
non-textual response produces no record and a non-empty warning log; and over
any sequence of responses the emitted records are exactly the extractions of
the textual ones, so one skip terminates neither the driver nor the run. -/
theorem nontext_skip (r : Response) :
    ((parse_article r).2.isSome = true ↔ r.isText = true)
    ∧ (r.isText = false → (parse_article r).2 = none ∧ (parse_article r).1 ≠ [])
    ∧ (∀ rs : List Response,
        rs.filterMap (fun x => (parse_article x).2)
          = (rs.filter (fun x => x.isText)).map extractRecord) := by
  refine ⟨?_, ?_, ?_⟩
  · rw [parse_article]
    by_cases ht : r.isText = true
    · simp [ht]
    · simp [ht]
  · intro hf
    rw [parse_article]
    simp [hf]
  · intro rs
    induction rs with
    | nil => rfl
    | cons x t ih =>
      rw [List.filterMap_cons, List.filter_cons]
      by_cases hx : x.isText = true
      · have h2 : (parse_article x).2 = some (extractRecord x) := by
          rw [parse_article, if_pos hx]
        rw [h2, if_pos hx, List.map_cons, ih]
      · have h2 : (parse_article x).2 = none := by
          rw [parse_article, if_neg hx]
        rw [h2, if_neg hx, ih]

/-- C9 witness: a concrete binary response is skipped with a warning. -/
theorem nontext_skip_witness :
    (parse_article ⟨false, [], [], [], [], [], []⟩).2 = none
    ∧ (parse_article ⟨false, [], [], [], [], [], []⟩).1 ≠ [] :=
  (nontext_skip ⟨false, [], [], [], [], [], []⟩).2.1 rfl

/-! Lemmas about whitespace tokenization. -/

theorem pySplitAux_word : ∀ (w : Str), (∀ c ∈ w, isPySpace c = false) →
    ∀ (s acc : Str), pySplitAux (w ++ s) acc = pySplitAux s (w.reverse ++ acc) := by
  intro w
  induction w with
  | nil => intro _ s acc; rfl
  | cons c t ih =>
    intro hw s acc
    have hc : isPySpace c = false := hw c (List.mem_cons_self _ _)
    rw [List.cons_append, pySplitAux, if_neg (by simp [hc])]
    rw [ih (fun x hx => hw x (List.mem_cons_of_mem _ hx)) s (c :: acc)]
    rw [List.reverse_cons, List.append_assoc]
    rfl

theorem pySplit_join : ∀ (ws : List Str),
    (∀ w ∈ ws, w ≠ [] ∧ ∀ c ∈ w, isPySpace c = false) →
    pySplit (joinSpace ws) = ws := by
  intro ws
  induction ws with
  | nil => intro _; rfl
  | cons w ws ih =>
    intro hws
    obtain ⟨hw1, hw2⟩ := hws w (List.mem_cons_self _ _)
    cases ws with
    | nil =>
      show pySplit w = [w]
      rw [pySplit, ← List.append_nil w, pySplitAux_word w hw2 [] []]
      rw [pySplitAux, if_neg (by simpa using hw1)]
      simp
    | cons w2 ws2 =>
      show pySplit (w ++ ' ' :: joinSpace (w2 :: ws2)) = w :: w2 :: ws2
      rw [pySplit, pySplitAux_word w hw2, List.append_nil]
      rw [pySplitAux, if_pos (by decide), if_neg (by simpa using hw1)]
      rw [List.reverse_reverse]
      rw [show pySplitAux (joinSpace (w2 :: ws2)) [] = pySplit (joinSpace (w2 :: ws2)) from rfl]
      rw [ih (fun x hx => hws x (List.mem_cons_of_mem _ hx))]

theorem pySplitAux_clean : ∀ (s acc : Str), (∀ c ∈ acc, isPySpace c = false) →
    ∀ w ∈ pySplitAux s acc, w ≠ [] ∧ ∀ c ∈ w, isPySpace c = false := by
  intro s
  induction s with
  | nil =>
    intro acc hacc w hw
    by_cases h : acc = []
    · simp [pySplitAux, h] at hw
    · rw [pySplitAux, if_neg h] at hw
      rcases List.mem_singleton.mp hw with rfl
      constructor
      · simpa using h
      · intro c hc
        exact hacc c (List.mem_reverse.mp hc)
  | cons c r ih =>
    intro acc hacc w hw
    rw [pySplitAux] at hw
    by_cases hc : isPySpace c = true
    · rw [if_pos hc] at hw
      by_cases h : acc = []
      · rw [if_pos h] at hw
        exact ih [] (by simp) w hw
      · rw [if_neg h] at hw
        rcases List.mem_cons.mp hw with rfl | hw2
        · constructor
          · simpa using h
          · intro x hx
            exact hacc x (List.mem_reverse.mp hx)
        · exact ih [] (by simp) w hw2
    · rw [if_neg hc] at hw
      refine ih (c :: acc) ?_ w hw
      intro x hx
      rcases List.mem_cons.mp hx with rfl | hx2
      · simpa using hc
      · exact hacc x hx2

theorem pySplit_join_pySplit (s : Str) :
    pySplit (joinSpace (pySplit s)) = pySplit s :=
  pySplit_join (pySplit s) (fun w hw => pySplitAux_clean s [] (by simp) w hw)

/-- C6: every emitted record's `tokens` field equals the number of
whitespace-delimited tokens of its `body`, and tokenization is idempotent:
splitting the body on whitespace and re-joining with single spaces yields a
string whose token list (hence token count) is unchanged. -/
theorem tokens_count_idempotent (r : Response) (rec : ArticleRecord)
    (h : (parse_article r).2 = some rec) :
    rec.tokens = (pySplit rec.body).length
    ∧ pySplit (joinSpace (pySplit rec.body)) = pySplit rec.body
    ∧ (pySplit (joinSpace (pySplit rec.body))).length = (pySplit rec.body).length := by
  have hrec : rec = extractRecord r := by
    rw [parse_article] at h
    by_cases ht : r.isText = true
    · rw [if_pos ht] at h
      exact (Option.some_inj.mp h).symm
    · rw [if_neg ht] at h
      exact absurd h (by simp)
  subst hrec
  exact ⟨rfl, pySplit_join_pySplit _, by rw [pySplit_join_pySplit]⟩

/-- C6 witness: the theorem applied to a concrete textual response. -/
theorem tokens_count_witness :
    (extractRecord ⟨true, [], [], [], [], [['h', 'i'], ['y', 'o']], []⟩).tokens
        = (pySplit (extractRecord ⟨true, [], [], [], [], [['h', 'i'], ['y', 'o']], []⟩).body).length
    ∧ pySplit (joinSpace (pySplit
        (extractRecord ⟨true, [], [], [], [], [['h', 'i'], ['y', 'o']], []⟩).body))
        = pySplit (extractRecord ⟨true, [], [], [], [], [['h', 'i'], ['y', 'o']], []⟩).body
    ∧ (pySplit (joinSpace (pySplit
        (extractRecord ⟨true, [], [], [], [], [['h', 'i'], ['y', 'o']], []⟩).body))).length
        = (pySplit (extractRecord ⟨true, [], [], [], [], [['h', 'i'], ['y', 'o']], []⟩).body).length :=
  tokens_count_idempotent ⟨true, [], [], [], [], [['h', 'i'], ['y', 'o']], []⟩ _ rfl

/-! Lemmas about the body-cleaning pipeline. -/

theorem transformNode_eq_nil {t : Str} : transformNode t = [] ↔ pyStrip t = [] := by
  rw [transformNode, replaceNBSP]
  exact List.map_eq_nil_iff

theorem cleanedOf_eq_filter (paras : List Str) :
    cleanedOf paras = (paras.map transformNode).filter
      (fun t => decide (t ≠ []) && decide (¬ t ∈ badPhrases)) := by
  induction paras with
  | nil => rfl
  | cons a t ih =>
    rw [cleanedOf] at ih ⊢
    by_cases ha : pyStrip a = []
    · have hfa : transformNode a = [] := transformNode_eq_nil.mpr ha
      simp only [List.map_cons, List.filter_cons]
      rw [if_neg (by simp [ha]), if_neg (by simp [hfa])]
      exact ih
    · have hfa : transformNode a ≠ [] := fun he => ha (transformNode_eq_nil.mp he)
      simp only [List.map_cons, List.filter_cons]
      rw [if_pos (show decide (pyStrip a ≠ []) = true by simpa using ha)]
      simp only [List.map_cons, List.filter_cons]
      by_cases hb : transformNode a ∈ badPhrases
      · rw [if_neg (by simp [hb]), if_neg (by simp [hb])]
        exact ih
      · rw [if_pos (by simp [hb]), if_pos (by simp [hfa, hb])]
        rw [ih]

/-- C5: the emitted body is the single-space join of the cleaned paragraph
nodes; no node of the cleaned list is a boilerplate phrase or empty; the
cleaned list preserves the relative order of the transformed (trimmed,
NBSP-replaced) paragraph nodes; and it equals the trimmed nodes with empty
and boilerplate nodes dropped. -/
theorem body_boilerplate_filtered (paras : List Str) :
    bodyOf paras = joinSpace (cleanedOf paras)
    ∧ (∀ t ∈ cleanedOf paras, ¬ t ∈ badPhrases ∧ t ≠ [])
    ∧ List.Sublist (cleanedOf paras) (paras.map transformNode)
    ∧ cleanedOf paras = (paras.map transformNode).filter
        (fun t => decide (t ≠ []) && decide (¬ t ∈ badPhrases)) := by
  refine ⟨rfl, ?_, ?_, cleanedOf_eq_filter paras⟩
  · intro t ht
    rw [cleanedOf_eq_filter] at ht
    have h2 := List.of_mem_filter ht
    simp only [Bool.and_eq_true, decide_eq_true_eq] at h2
    exact ⟨h2.2, h2.1⟩
  · rw [cleanedOf_eq_filter]
    exact List.filter_sublist _

/-- C5 witness: the theorem applied to a concrete paragraph list in which a
boilerplate phrase is dropped and a real node survives. -/
theorem body_boilerplate_witness :
    ¬ ("hi".toList ∈ badPhrases) ∧ "hi".toList ≠ ([] : Str) :=
  (body_boilerplate_filtered [" hi ".toList, "বিজ্ঞাপন".toList]).2.1
    "hi".toList (by decide)

/-! Lemmas about the link registry and one harvest round. -/

theorem runTryAdds_subset : ∀ (ops seen : List Str), seen ⊆ (runTryAdds seen ops).2 := by
  intro ops
  induction ops with
  | nil => intro seen; simp [runTryAdds]
  | cons u t ih =>
    intro seen
    simp only [runTryAdds]
    intro x hx
    apply ih (tryAdd seen u).2
    rw [tryAdd]
    by_cases hu : u ∈ seen
    · rw [if_pos hu]; exact hx
    · rw [if_neg hu]; exact List.mem_cons_of_mem _ hx

theorem runTryAdds_count_zero : ∀ (ops seen : List Str) (u : Str), u ∈ seen →
    ((runTryAdds seen ops).1.countP (fun p => decide (p.1 = u) && p.2)) = 0 := by
  intro ops
  induction ops with
  | nil => intro seen u _; rfl
  | cons v t ih =>
    intro seen u hu
    simp only [runTryAdds, List.countP_cons]
    rw [tryAdd]
    by_cases hv : v ∈ seen
    · simp only [if_pos hv]
      rw [ih seen u hu]
      simp
    · simp only [if_neg hv]
      have hvu : ¬(v = u) := fun e => hv (e ▸ hu)
      rw [ih (v :: seen) u (List.mem_cons_of_mem _ hu)]
      simp [hvu]

theorem runTryAdds_count_le : ∀ (ops seen : List Str) (u : Str),
    ((runTryAdds seen ops).1.countP (fun p => decide (p.1 = u) && p.2)) ≤ 1 := by
  intro ops
  induction ops with
  | nil => intro seen u; simp [runTryAdds]
  | cons v t ih =>
    intro seen u
    simp only [runTryAdds, List.countP_cons]
    rw [tryAdd]
    by_cases hv : v ∈ seen
    · simp only [if_pos hv]
      simpa using ih seen u
    · simp only [if_neg hv]
      by_cases hvu : v = u
      · subst hvu
        rw [runTryAdds_count_zero t (v :: seen) v (List.mem_cons_self _ _)]
        simp
      · have := ih (v :: seen) u
        simp [hvu]
        omega

theorem processRound_seen_sub (cat : Str) (slug : Option Str) :
    ∀ (hs seen : List Str), seen ⊆ (processRound cat slug seen hs).2 := by
  intro hs
  induction hs with
  | nil => intro seen; simp [processRound]
  | cons a t ih =>
    intro seen
    simp only [processRound]
    by_cases hm : articleMatch a = true
    · rw [if_pos hm]
      by_cases hin : a ∈ seen
      · rw [if_pos hin]
        exact ih seen
      · rw [if_neg hin]
        exact fun x hx => ih (a :: seen) (List.mem_cons_of_mem _ hx)
    · rw [if_neg hm]
      exact ih seen

theorem processRound_req_props (cat : Str) (slug : Option Str) :
    ∀ (hs seen : List Str) (r : Request), r ∈ (processRound cat slug seen hs).1 →
      r.category = cat ∧ r.topicSlug = slug ∧ articleMatch r.url = true ∧
      r.url ∈ hs ∧ r.url ∉ seen ∧ r.url ∈ (processRound cat slug seen hs).2 := by
  intro hs
  induction hs with
  | nil => intro seen r hr; simp [processRound] at hr
  | cons a t ih =>
    intro seen r hr
    simp only [processRound] at hr ⊢
    by_cases hm : articleMatch a = true
    · rw [if_pos hm] at hr ⊢
      by_cases hin : a ∈ seen
      · rw [if_pos hin] at hr ⊢
        obtain ⟨h1, h2, h3, h4, h5, h6⟩ := ih seen r hr
        exact ⟨h1, h2, h3, List.mem_cons_of_mem _ h4, h5, h6⟩
      · rw [if_neg hin] at hr ⊢
        rcases List.mem_cons.mp hr with rfl | hr2
        · refine ⟨rfl, rfl, hm, List.mem_cons_self _ _, hin, ?_⟩
          exact processRound_seen_sub cat slug t (a :: seen) (List.mem_cons_self _ _)
        · obtain ⟨h1, h2, h3, h4, h5, h6⟩ := ih (a :: seen) r hr2
          refine ⟨h1, h2, h3, List.mem_cons_of_mem _ h4, ?_, h6⟩
          exact fun hx => h5 (List.mem_cons_of_mem _ hx)
    · rw [if_neg hm] at hr ⊢
      obtain ⟨h1, h2, h3, h4, h5, h6⟩ := ih seen r hr
      exact ⟨h1, h2, h3, List.mem_cons_of_mem _ h4, h5, h6⟩

theorem processRound_nodup (cat : Str) (slug : Option Str) :
    ∀ (hs seen : List Str), ((processRound cat slug seen hs).1.map Request.url).Nodup := by
  intro hs
  induction hs with
  | nil => intro seen; simp [processRound]
  | cons a t ih =>
    intro seen
    simp only [processRound]
    by_cases hm : articleMatch a = true
    · rw [if_pos hm]
      by_cases hin : a ∈ seen
      · rw [if_pos hin]
        exact ih seen
      · rw [if_neg hin]
        simp only [List.map_cons, List.nodup_cons]
        constructor
        · intro hmem
          rcases List.mem_map.mp hmem with ⟨r, hr, hurl⟩
          have h5 := (processRound_req_props cat slug t (a :: seen) r hr).2.2.2.2.1
          exact h5 (hurl ▸ List.mem_cons_self a seen)
        · exact ih (a :: seen)
    · rw [if_neg hm]
      exact ih seen

theorem processRound_complete (cat : Str) (slug : Option Str) :
    ∀ (hs seen : List Str) (u : Str), u ∈ hs → articleMatch u = true → u ∉ seen →
      ∃ r ∈ (processRound cat slug seen hs).1, r.url = u := by
  intro hs
  induction hs with
  | nil => intro seen u hu; cases hu
  | cons a t ih =>
    intro seen u hu hm hns
    simp only [processRound]
    by_cases heq : u = a
    · subst heq
      rw [if_pos hm, if_neg hns]
      exact ⟨⟨u, cat, slug⟩, List.mem_cons_self _ _, rfl⟩
    · have hu2 : u ∈ t := by
        rcases List.mem_cons.mp hu with h1 | h1
        · exact absurd h1 heq
        · exact h1
      by_cases hma : articleMatch a = true
      · rw [if_pos hma]
        by_cases hin : a ∈ seen
        · rw [if_pos hin]
          exact ih seen u hu2 hm hns
        · rw [if_neg hin]
          have hns2 : u ∉ a :: seen := by
            intro hx
            rcases List.mem_cons.mp hx with h1 | h1
            · exact heq h1
            · exact hns h1
          rcases ih (a :: seen) u hu2 hm hns2 with ⟨r, hr, hurl⟩
          exact ⟨r, List.mem_cons_of_mem _ hr, hurl⟩
      · rw [if_neg hma]
        exact ih seen u hu2 hm hns

theorem processRound_noNew (cat : Str) (slug : Option Str) :
    ∀ (hs seen : List Str), (∀ h ∈ hs, articleMatch h = false ∨ h ∈ seen) →
      processRound cat slug seen hs = ([], seen) := by
  intro hs
  induction hs with
  | nil => intro seen _; rfl
  | cons a t ih =>
    intro seen hH
    simp only [processRound]
    rcases hH a (List.mem_cons_self _ _) with hm | hin
    · rw [if_neg (by simp [hm])]
      exact ih seen (fun x hx => hH x (List.mem_cons_of_mem _ hx))
    · by_cases hm : articleMatch a = true
      · rw [if_pos hm, if_pos hin]
        exact ih seen (fun x hx => hH x (List.mem_cons_of_mem _ hx))
      · rw [if_neg hm]
        exact ih seen (fun x hx => hH x (List.mem_cons_of_mem _ hx))

/-- C3: in one harvest round starting from registry `seen`, a URL is carried
by some emitted request exactly when it occurs among the harvested hrefs,
matches the article-URL predicate, and is not already registered; every
emitted request carries the discovering source's category and topic slug; and
no URL is emitted twice within the round. -/
theorem round_emission_iff (cat : Str) (slug : Option Str) (seen hrefs : List Str)
    (u : Str) :
    ((∃ r ∈ (processRound cat slug seen hrefs).1, r.url = u) ↔
      (u ∈ hrefs ∧ articleMatch u = true ∧ u ∉ seen))
    ∧ (∀ r ∈ (processRound cat slug seen hrefs).1,
        r.category = cat ∧ r.topicSlug = slug)
    ∧ ((processRound cat slug seen hrefs).1.map Request.url).Nodup := by
  refine ⟨⟨?_, ?_⟩, ?_, ?_⟩
  · rintro ⟨r, hr, rfl⟩
    obtain ⟨_, _, h3, h4, h5, _⟩ := processRound_req_props cat slug hrefs seen r hr
    exact ⟨h4, h3, h5⟩
  · rintro ⟨h1, h2, h3⟩
    exact processRound_complete cat slug hrefs seen u h1 h2 h3
  · intro r hr
    obtain ⟨h1, h2, _⟩ := processRound_req_props cat slug hrefs seen r hr
    exact ⟨h1, h2⟩
  · exact processRound_nodup cat slug hrefs seen

/-- C3 witness: a fresh matching href yields an emitted request, via the
theorem at a concrete round. -/
theorem round_emission_witness :
    ∃ r ∈ (processRound "sports".toList none []
        ["https://www.dhakapost.com/sports/123".toList]).1,
      r.url = "https://www.dhakapost.com/sports/123".toList :=
  (round_emission_iff "sports".toList none []
      ["https://www.dhakapost.com/sports/123".toList]
      "https://www.dhakapost.com/sports/123".toList).1.mpr (by decide)

/-! Lemmas about the pagination loop. -/

theorem roundUpdate_seen (st : ListState) (s2 : List Str) :
    (roundUpdate st s2).seen = s2 := by
  rw [roundUpdate]
  by_cases h : s2.length = st.lastTotal
  · rw [if_pos h]
  · rw [if_neg h]

theorem parseListLoop_rounds_le (cat : Str) (slug : Option Str)
    (env : Nat → RoundEnv) :
    ∀ (fuel i : Nat) (st : ListState),
      (parseListLoop cat slug env fuel i st).2.2.length ≤ fuel := by
  intro fuel
  induction fuel with
  | zero => intro i st; simp [parseListLoop]
  | succ fuel ih =>
    intro i st
    simp only [parseListLoop]
    by_cases h1 : targetUniqueLinks ≤ st.seen.length
    · rw [if_pos h1]
      simp
    · rw [if_neg h1]
      by_cases h2 : 5 ≤ (roundUpdate st (processRound cat slug st.seen (env i).hrefs).2).staleRounds
      · rw [if_pos h2]
        simp
      · rw [if_neg h2]
        by_cases h3 : (env i).buttonOk = false
        · rw [if_pos h3]
          simp
        · rw [if_neg h3]
          simpa using Nat.succ_le_succ (ih (i + 1) _)

theorem parseListLoop_pres_lt (cat : Str) (slug : Option Str)
    (env : Nat → RoundEnv) :
    ∀ (fuel i : Nat) (st : ListState),
      ∀ x ∈ (parseListLoop cat slug env fuel i st).2.2, x < targetUniqueLinks := by
  intro fuel
  induction fuel with
  | zero => intro i st x hx; simp [parseListLoop] at hx
  | succ fuel ih =>
    intro i st x hx
    simp only [parseListLoop] at hx
    by_cases h1 : targetUniqueLinks ≤ st.seen.length
    · rw [if_pos h1] at hx
      simp at hx
    · rw [if_neg h1] at hx
      have hlt : st.seen.length < targetUniqueLinks := Nat.lt_of_not_le h1
      by_cases h2 : 5 ≤ (roundUpdate st (processRound cat slug st.seen (env i).hrefs).2).staleRounds
      · rw [if_pos h2] at hx
        rcases List.mem_singleton.mp hx with rfl
        exact hlt
      · rw [if_neg h2] at hx
        by_cases h3 : (env i).buttonOk = false
        · rw [if_pos h3] at hx
          rcases List.mem_singleton.mp hx with rfl
          exact hlt
        · rw [if_neg h3] at hx
          rcases List.mem_cons.mp hx with rfl | hx2
          · exact hlt
          · exact ih (i + 1) _ x hx2

theorem parseListLoop_seen_mono (cat : Str) (slug : Option Str)
    (env : Nat → RoundEnv) :
    ∀ (fuel i : Nat) (st : ListState),
      st.seen ⊆ (parseListLoop cat slug env fuel i st).2.1.seen := by
  intro fuel
  induction fuel with
  | zero => intro i st; simp [parseListLoop]
  | succ fuel ih =>
    intro i st
    simp only [parseListLoop]
    by_cases h1 : targetUniqueLinks ≤ st.seen.length
    · rw [if_pos h1]
      exact fun x hx => hx
    · rw [if_neg h1]
      have hsub : st.seen ⊆ (roundUpdate st (processRound cat slug st.seen (env i).hrefs).2).seen := by
        rw [roundUpdate_seen]
        exact processRound_seen_sub cat slug (env i).hrefs st.seen
      by_cases h2 : 5 ≤ (roundUpdate st (processRound cat slug st.seen (env i).hrefs).2).staleRounds
      · rw [if_pos h2]
        exact hsub
      · rw [if_neg h2]
        by_cases h3 : (env i).buttonOk = false
        · rw [if_pos h3]
          exact hsub
        · rw [if_neg h3]
          exact fun x hx => ih (i + 1) _ (hsub hx)

theorem parseListLoop_req_props (cat : Str) (slug : Option Str)
    (env : Nat → RoundEnv) :
    ∀ (fuel i : Nat) (st : ListState) (r : Request),
      r ∈ (parseListLoop cat slug env fuel i st).1 →
      r.category = cat ∧ r.topicSlug = slug ∧ articleMatch r.url = true ∧
      r.url ∉ st.seen ∧ r.url ∈ (parseListLoop cat slug env fuel i st).2.1.seen := by
  intro fuel
  induction fuel with
  | zero => intro i st r hr; simp [parseListLoop] at hr
  | succ fuel ih =>
    intro i st r hr
    simp only [parseListLoop] at hr ⊢
    by_cases h1 : targetUniqueLinks ≤ st.seen.length
    · rw [if_pos h1] at hr
      simp at hr
    · rw [if_neg h1] at hr ⊢
      have hround := processRound_req_props cat slug (env i).hrefs st.seen
      by_cases h2 : 5 ≤ (roundUpdate st (processRound cat slug st.seen (env i).hrefs).2).staleRounds
      · rw [if_pos h2] at hr ⊢
        obtain ⟨g1, g2, g3, _, g5, g6⟩ := hround r hr
        exact ⟨g1, g2, g3, g5, by rw [roundUpdate_seen]; exact g6⟩
      · rw [if_neg h2] at hr ⊢
        by_cases h3 : (env i).buttonOk = false
        · rw [if_pos h3] at hr ⊢
          obtain ⟨g1, g2, g3, _, g5, g6⟩ := hround r hr
          exact ⟨g1, g2, g3, g5, by rw [roundUpdate_seen]; exact g6⟩
        · rw [if_neg h3] at hr ⊢
          rcases List.mem_append.mp hr with hr1 | hr2
          · obtain ⟨g1, g2, g3, _, g5, g6⟩ := hround r hr1
            refine ⟨g1, g2, g3, g5, ?_⟩
            apply parseListLoop_seen_mono cat slug env fuel (i + 1) _
            rw [roundUpdate_seen]
            exact g6
          · obtain ⟨g1, g2, g3, g4, g5⟩ := ih (i + 1) _ r hr2
            refine ⟨g1, g2, g3, ?_, g5⟩
            intro hx
            apply g4
            rw [roundUpdate_seen]
            exact processRound_seen_sub cat slug (env i).hrefs st.seen hx

theorem parseListLoop_nodup (cat : Str) (slug : Option Str)
    (env : Nat → RoundEnv) :
    ∀ (fuel i : Nat) (st : ListState),
      ((parseListLoop cat slug env fuel i st).1.map Request.url).Nodup := by
  intro fuel
  induction fuel with
  | zero => intro i st; simp [parseListLoop]
  | succ fuel ih =>
    intro i st
    simp only [parseListLoop]
    by_cases h1 : targetUniqueLinks ≤ st.seen.length
    · rw [if_pos h1]
      simp
    · rw [if_neg h1]
      by_cases h2 : 5 ≤ (roundUpdate st (processRound cat slug st.seen (env i).hrefs).2).staleRounds
      · rw [if_pos h2]
        exact processRound_nodup cat slug (env i).hrefs st.seen
      · rw [if_neg h2]
        by_cases h3 : (env i).buttonOk = false
        · rw [if_pos h3]
          exact processRound_nodup cat slug (env i).hrefs st.seen
        · rw [if_neg h3]
          rw [List.map_append, List.nodup_append]
          refine ⟨processRound_nodup cat slug (env i).hrefs st.seen, ih (i + 1) _, ?_⟩
          intro x hx1 hx2
          rcases List.mem_map.mp hx1 with ⟨r1, hr1, hu1⟩
          rcases List.mem_map.mp hx2 with ⟨r2, hr2, hu2⟩
          have g6 := (processRound_req_props cat slug (env i).hrefs st.seen r1 hr1).2.2.2.2.2
          have g4 := (parseListLoop_req_props cat slug env fuel (i + 1) _ r2 hr2).2.2.2.1
          apply g4
          rw [roundUpdate_seen]
          rw [hu2, ← hu1]
          exact g6

theorem ListState_mk_seen (a : List Str) (b c : Nat) :
    (ListState.mk a b c).seen = a := rfl

theorem ListState_mk_lastTotal (a : List Str) (b c : Nat) :
    (ListState.mk a b c).lastTotal = b := rfl

theorem ListState_mk_staleRounds (a : List Str) (b c : Nat) :
    (ListState.mk a b c).staleRounds = c := rfl

theorem parseListLoop_stale (cat : Str) (slug : Option Str) (env : Nat → RoundEnv) :
    ∀ (fuel i : Nat) (st : ListState),
      (∀ j h, h ∈ (env j).hrefs → articleMatch h = false ∨ h ∈ st.seen) →
      st.lastTotal = st.seen.length → st.staleRounds < 5 →
      (parseListLoop cat slug env fuel i st).2.2.length ≤ 5 - st.staleRounds := by
  intro fuel
  induction fuel with
  | zero => intro i st _ _ _; simp [parseListLoop]
  | succ fuel ih =>
    intro i st hH hlast hstale
    simp only [parseListLoop]
    by_cases h1 : targetUniqueLinks ≤ st.seen.length
    · rw [if_pos h1]
      simp
    · rw [if_neg h1]
      have hpr : processRound cat slug st.seen (env i).hrefs = ([], st.seen) :=
        processRound_noNew cat slug (env i).hrefs st.seen (fun h hh => hH i h hh)
      rw [hpr]
      have hru : roundUpdate st st.seen = ⟨st.seen, st.lastTotal, st.staleRounds + 1⟩ := by
        rw [roundUpdate, if_pos hlast.symm]
      rw [hru]
      simp only [ListState_mk_staleRounds]
      by_cases h2 : 5 ≤ st.staleRounds + 1
      · rw [if_pos h2]
        simp only [List.length_singleton]
        omega
      · rw [if_neg h2]
        by_cases h3 : (env i).buttonOk = false
        · rw [if_pos h3]
          simp only [List.length_singleton]
          omega
        · rw [if_neg h3]
          have hrec := ih (i + 1) ⟨st.seen, st.lastTotal, st.staleRounds + 1⟩
            hH hlast (by simp only [ListState_mk_staleRounds]; omega)
          simp only [ListState_mk_staleRounds] at hrec
          simp only [List.length_cons]
          omega

theorem parseListLoop_stale_entry (cat : Str) (slug : Option Str)
    (env : Nat → RoundEnv) :
    ∀ (fuel i : Nat) (seen : List Str),
      (∀ j h, h ∈ (env j).hrefs → articleMatch h = false ∨ h ∈ seen) →
      (parseListLoop cat slug env fuel i ⟨seen, 0, 0⟩).2.2.length ≤ 6 := by
  intro fuel i seen hH
  cases fuel with
  | zero => simp [parseListLoop]
  | succ fuel =>
    simp only [parseListLoop, ListState_mk_seen, ListState_mk_lastTotal]
    by_cases h1 : targetUniqueLinks ≤ seen.length
    · rw [if_pos h1]
      simp
    · rw [if_neg h1]
      have hpr : processRound cat slug seen (env i).hrefs = ([], seen) :=
        processRound_noNew cat slug (env i).hrefs seen (fun h hh => hH i h hh)
      rw [hpr]
      by_cases hz : seen.length = 0
      · have hru : roundUpdate ⟨seen, 0, 0⟩ seen = ⟨seen, 0, 1⟩ := by
          rw [roundUpdate, ListState_mk_lastTotal, ListState_mk_staleRounds, if_pos hz]
        rw [hru]
        simp only [ListState_mk_staleRounds]
        rw [if_neg (by omega)]
        by_cases h3 : (env i).buttonOk = false
        · rw [if_pos h3]
          simp
        · rw [if_neg h3]
          have hrec := parseListLoop_stale cat slug env fuel (i + 1) ⟨seen, 0, 1⟩
            hH hz.symm (by simp only [ListState_mk_staleRounds]; omega)
          simp only [ListState_mk_staleRounds] at hrec
          simp only [List.length_cons]
          omega
      · have hru : roundUpdate ⟨seen, 0, 0⟩ seen = ⟨seen, seen.length, 0⟩ := by
          rw [roundUpdate, ListState_mk_lastTotal, ListState_mk_staleRounds, if_neg hz]
        rw [hru]
        simp only [ListState_mk_staleRounds]
        rw [if_neg (by omega)]
        by_cases h3 : (env i).buttonOk = false
        · rw [if_pos h3]
          simp
        · rw [if_neg h3]
          have hrec := parseListLoop_stale cat slug env fuel (i + 1) ⟨seen, seen.length, 0⟩
            hH rfl (by simp only [ListState_mk_staleRounds]; omega)
          simp only [ListState_mk_staleRounds] at hrec
          simp only [List.length_cons]
          omega

/-- C2 counterexample: with one URL already in the shared registry (as
happens for every source after the first) and a source that never yields any
hrefs, `parse_list` executes 6 rounds — every one of them a no-new-link
round — before the stale-round stop fires, so it does not stop within
`staleRoundLimit = 5` consecutive no-new-link rounds: the first such round is
miscounted as fresh because `last_total` starts at 0, not at the current
registry size. -/
theorem pagination_stale_six_rounds_cx :
    (parse_list [] none (fun _ => ⟨[], true⟩) [['u']]).2.2.length = 6
    ∧ ¬ (parse_list [] none (fun _ => ⟨[], true⟩) [['u']]).2.2.length ≤ 5 := by
  constructor
  · rfl
  · decide

/-- C2 (amended): the pagination loop always executes at most `maxReveals =
80` rounds; every executed round starts with the registry strictly below
`globalUniqueTarget = 2100` (and a registry already at the target stops the
loop before any round); if the source never yields a new link, the loop stops
within 6 rounds (the stale counter needs `staleRoundLimit = 5` matching
rounds, plus one round that re-baselines `last_total` when the registry was
non-empty on entry), and within exactly `staleRoundLimit = 5` rounds when the
registry is empty at loop entry. -/
theorem pagination_termination_bounds (cat : Str) (slug : Option Str)
    (env : Nat → RoundEnv) (seen : List Str) :
    (parse_list cat slug env seen).2.2.length ≤ maxClicksPerSource
    ∧ (∀ x ∈ (parse_list cat slug env seen).2.2, x < targetUniqueLinks)
    ∧ (targetUniqueLinks ≤ seen.length → (parse_list cat slug env seen).2.2 = [])
    ∧ ((∀ j h, h ∈ (env j).hrefs → articleMatch h = false ∨ h ∈ seen) →
        (parse_list cat slug env seen).2.2.length ≤ 6)
    ∧ (seen = [] → (∀ j h, h ∈ (env j).hrefs → articleMatch h = false) →
        (parse_list cat slug env seen).2.2.length ≤ 5) := by
  refine ⟨?_, ?_, ?_, ?_, ?_⟩
  · exact parseListLoop_rounds_le cat slug env maxClicksPerSource 0 ⟨seen, 0, 0⟩
  · exact parseListLoop_pres_lt cat slug env maxClicksPerSource 0 ⟨seen, 0, 0⟩
  · intro h
    rw [parse_list, maxClicksPerSource, parseListLoop, if_pos h]
  · intro hH
    exact parseListLoop_stale_entry cat slug env maxClicksPerSource 0 seen hH
  · rintro rfl hH
    have h := parseListLoop_stale cat slug env maxClicksPerSource 0 ⟨[], 0, 0⟩
      (fun j x hx => Or.inl (hH j x hx)) rfl (by simp only [ListState_mk_staleRounds]; omega)
    simpa using h

/-- C2 witness: the amended bounds applied to a concrete run (empty initial
registry, a source with no hrefs and an always-available button). -/
theorem pagination_termination_witness :
    (parse_list [] none (fun _ => ⟨[], true⟩) []).2.2.length ≤ 5 := by
  have h := (pagination_termination_bounds [] none (fun _ => ⟨[], true⟩) []).2.2.2.2
  exact h rfl (fun j x hx => absurd hx (List.not_mem_nil x))

/-! Lemmas about a whole run over the sources. -/

theorem parse_list_req_props (cat : Str) (slug : Option Str) (env : Nat → RoundEnv)
    (seen : List Str) (r : Request) (hr : r ∈ (parse_list cat slug env seen).1) :
    r.category = cat ∧ r.topicSlug = slug ∧ articleMatch r.url = true ∧
    r.url ∉ seen ∧ r.url ∈ (parse_list cat slug env seen).2.1.seen :=
  parseListLoop_req_props cat slug env maxClicksPerSource 0 ⟨seen, 0, 0⟩ r hr

theorem parse_list_nodup (cat : Str) (slug : Option Str) (env : Nat → RoundEnv)
    (seen : List Str) :
    ((parse_list cat slug env seen).1.map Request.url).Nodup :=
  parseListLoop_nodup cat slug env maxClicksPerSource 0 ⟨seen, 0, 0⟩

theorem parse_list_seen_mono (cat : Str) (slug : Option Str) (env : Nat → RoundEnv)
    (seen : List Str) :
    seen ⊆ (parse_list cat slug env seen).2.1.seen :=
  parseListLoop_seen_mono cat slug env maxClicksPerSource 0 ⟨seen, 0, 0⟩

theorem runSources_props :
    ∀ (jobs : List SourceJob) (seen : List Str),
      ((runSources seen jobs).1.map Request.url).Nodup
      ∧ (∀ r ∈ (runSources seen jobs).1,
          r.url ∈ (runSources seen jobs).2 ∧ r.url ∉ seen)
      ∧ seen ⊆ (runSources seen jobs).2 := by
  intro jobs
  induction jobs with
  | nil =>
    intro seen
    refine ⟨by simp [runSources], ?_, ?_⟩
    · intro r hr
      simp [runSources] at hr
    · simp [runSources]
  | cons j js ih =>
    intro seen
    obtain ⟨ihn, ihp, ihs⟩ := ih (parse_list j.category j.topicSlug j.env seen).2.1.seen
    simp only [runSources]
    refine ⟨?_, ?_, ?_⟩
    · rw [List.map_append, List.nodup_append]
      refine ⟨parse_list_nodup _ _ _ _, ihn, ?_⟩
      intro x hx1 hx2
      rcases List.mem_map.mp hx1 with ⟨r1, hr1, hu1⟩
      rcases List.mem_map.mp hx2 with ⟨r2, hr2, hu2⟩
      have g1 := (parse_list_req_props _ _ _ _ r1 hr1).2.2.2.2
      have g2 := (ihp r2 hr2).2
      apply g2
      rw [hu2, ← hu1]
      exact g1
    · intro r hr
      rcases List.mem_append.mp hr with hr1 | hr2
      · obtain ⟨_, _, _, g4, g5⟩ := parse_list_req_props _ _ _ _ r hr1
        exact ⟨ihs g5, g4⟩
      · obtain ⟨g1, g2⟩ := ihp r hr2
        refine ⟨g1, ?_⟩
        intro hx
        exact g2 (parse_list_seen_mono _ _ _ _ hx)
    · intro x hx
      exact ihs (parse_list_seen_mono _ _ _ _ hx)

theorem countP_url_le_one :
    ∀ (l : List Request), ((l.map Request.url).Nodup) → ∀ (u : Str),
      l.countP (fun r => decide (r.url = u)) ≤ 1 := by
  intro l
  induction l with
  | nil => intro _ u; simp
  | cons a t ih =>
    intro h u
    simp only [List.map_cons, List.nodup_cons] at h
    simp only [List.countP_cons]
    by_cases ha : a.url = u
    · have h0 : t.countP (fun r => decide (r.url = u)) = 0 := by
        apply List.countP_eq_zero.mpr
        intro r hr
        simp only [decide_eq_true_eq]
        intro he
        exact h.1 (List.mem_map.mpr ⟨r, hr, he.trans ha.symm⟩)
      rw [h0]
      simp [ha]
    · have := ih h.2 u
      simp [ha]
      omega

/-- C1: modelling the run's interleaved check-and-inserts on the shared
`seen_links` set as a sequence of atomic `tryAdd` steps: starting from the
empty registry at most one step per URL returns true; once a URL is in the
registry every later step on it returns false; the registry only grows (no
step removes a URL); and consequently, over a whole multi-source run, each
article URL is emitted for extraction at most once. -/
theorem tryAdd_unique_and_monotone (ops : List Str) (u : Str) (seen : List Str)
    (jobs : List SourceJob) :
    ((runTryAdds [] ops).1.countP (fun p => decide (p.1 = u) && p.2) ≤ 1)
    ∧ (u ∈ seen →
        (runTryAdds seen ops).1.countP (fun p => decide (p.1 = u) && p.2) = 0)
    ∧ seen ⊆ (runTryAdds seen ops).2
    ∧ (runSources [] jobs).1.countP (fun r => decide (r.url = u)) ≤ 1 := by
  refine ⟨runTryAdds_count_le ops [] u, ?_, runTryAdds_subset ops seen, ?_⟩
  · intro hu
    exact runTryAdds_count_zero ops seen u hu
  · exact countP_url_le_one (runSources [] jobs).1 (runSources_props jobs []).1 u

/-- C1 witness: the uniqueness facts at a concrete sequence of operations
with the URL already present. -/
theorem tryAdd_unique_witness :
    (runTryAdds [['a']] [['a'], ['b']]).1.countP
      (fun p => decide (p.1 = ['a']) && p.2) = 0 :=
  (tryAdd_unique_and_monotone [['a'], ['b']] ['a'] [['a']] []).2.1 (by decide)

/-- C10: every URL accepted by `ARTICLE_RE` begins with the literal
`http://www.dhakapost.com/` or `https://www.dhakapost.com/` — scheme http or
https and host exactly `www.dhakapost.com` — and every request emitted by the
pagination loop carries a URL accepted by `ARTICLE_RE`, so no off-site URL is
ever sent for extraction. -/
theorem emitted_urls_onsite (s cat : Str) (slug : Option Str) (env : Nat → RoundEnv)
    (seen : List Str) :
    (articleMatch s = true →
      (dropLit httpFull s).isSome = true ∨ (dropLit httpsFull s).isSome = true)
    ∧ (∀ r ∈ (parse_list cat slug env seen).1, articleMatch r.url = true) := by
  constructor
  · intro h
    rw [articleMatch] at h
    cases hd : dropLit httpsFull s with
    | some rest => exact Or.inr rfl
    | none =>
      rw [hd] at h
      cases hd2 : dropLit httpFull s with
      | some rest => exact Or.inl rfl
      | none =>
        rw [hd2] at h
        exact absurd h (by simp)
  · intro r hr
    exact (parse_list_req_props cat slug env seen r hr).2.2.1

/-- C10 witness: the host/scheme property applied at a concrete accepted
URL. -/
theorem emitted_urls_onsite_witness :
    (dropLit httpFull "https://www.dhakapost.com/sports/123".toList).isSome = true
    ∨ (dropLit httpsFull "https://www.dhakapost.com/sports/123".toList).isSome = true :=
  (emitted_urls_onsite "https://www.dhakapost.com/sports/123".toList [] none
    (fun _ => ⟨[], true⟩) []).1 (by decide)
